import Mathlib

set_option maxRecDepth 8192

/-!
Verification of the core of `irc_daemon` (rusty-ircd): a shallow embedding of
`src/buffer.rs` (the fixed 512-byte `MessageBuffer`), the parameter-splitting
part of `src/parser.rs` (`parse_message` / `split_colon_arg`), and the
namespace / dispatcher logic of `src/irc.rs` (`Core::insert_name`,
`Core::get_name`, `Core::assign_id`, `Core::try_nick_change`,
`Core::join_chan`, the `msg` handler, and the `User::send_rpl` NAMES-split
loop).  Rust strings are embedded as lists of bytes (`List Nat`), `&mut self`
methods as state-passing functions, and `u64`/`usize` arithmetic as `Nat`
with explicit wraparound modulo `2 ^ 64` where overflow can occur.
-/

/-! ## Message buffer (src/buffer.rs) -/

/-- `MESSAGE_SIZE` from buffer.rs: the IRC maximum message size. -/
def MESSAGE_SIZE : Nat := 512

/-- The error type of `MessageBuffer::append`. -/
inductive BufferError where
  | overFlow
deriving DecidableEq

/-- `MessageBuffer` from buffer.rs: a fixed 512-slot array (here a list of
bytes that well-formed states keep at length 512) and a write index.
Anything at or past `index` is stale data. -/
structure MessageBuffer where
  data : List Nat
  index : Nat
deriving DecidableEq

/-- Well-formedness of a buffer state: the backing array has exactly
`MESSAGE_SIZE` slots and the write index is inside it, as the Rust type
`[char; MESSAGE_SIZE]` with a maintained index guarantees. -/
def MessageBuffer.WF (s : MessageBuffer) : Prop :=
  s.data.length = MESSAGE_SIZE ∧ s.index ≤ MESSAGE_SIZE

/-- The live contents of the buffer: its first `index` bytes. -/
def MessageBuffer.contents (s : MessageBuffer) : List Nat :=
  s.data.take s.index

/-- `MessageBuffer::new`. -/
def MessageBuffer.new : MessageBuffer :=
  { data := List.replicate MESSAGE_SIZE 0, index := 0 }

/-- Scan a byte list for the first adjacent CR (13) LF (10) pair, returning
the position of the CR.  `MessageBuffer::get_eol` loops over
`i in 1..index` testing `buffer[i-1] == CR && buffer[i] == LF`, i.e. it
scans exactly the adjacent pairs of the first `index` bytes in order. -/
def findCRLF : List Nat → Option Nat
  | a :: b :: rest =>
      if a = 13 ∧ b = 10 then some 0
      else (findCRLF (b :: rest)).map (· + 1)
  | _ => none

/-- `MessageBuffer::get_eol`: the index one past the first CR LF pair of the
live contents (the source returns `i + 1` where `i` is the LF position,
i.e. CR position plus two). -/
def MessageBuffer.getEol (s : MessageBuffer) : Option Nat :=
  (findCRLF s.contents).map (· + 2)

/-- `MessageBuffer::shift_bytes_to_start`: copy `buffer[start..index]` down
to offset 0 (slots from `index - start` on keep their old stale values) and
shift the index. -/
def MessageBuffer.shiftToStart (s : MessageBuffer) (start : Nat) : MessageBuffer :=
  { data := (s.data.drop start).take (s.index - start) ++ s.data.drop (s.index - start),
    index := s.index - start }

/-- `MessageBuffer::extract`: `None` when the buffer is empty; otherwise the
prefix up to and including the first CR LF (shifting the remainder down), or
-- per the source comment "just incase we treat the no CR-LF case as return
whatever string happens to currently be in there" -- the whole live contents
with the index reset to 0. -/
def MessageBuffer.extract (s : MessageBuffer) : Option (List Nat) × MessageBuffer :=
  if s.index = 0 then (none, s)
  else
    match s.getEol with
    | some eol => (some (s.data.take eol), s.shiftToStart eol)
    | none => (some (s.data.take s.index), { data := s.data, index := 0 })

/-- `MessageBuffer::append`: fails with `OverFlow` when the message does not
fit in the remaining space (no partial write: the Rust method returns before
touching the buffer), otherwise writes the bytes at `index..index+len` and
advances the index. -/
def MessageBuffer.append (s : MessageBuffer) (msg : List Nat) :
    Option BufferError × MessageBuffer :=
  if msg.length > MESSAGE_SIZE - s.index then (some BufferError.overFlow, s)
  else (none,
    { data := s.data.take s.index ++ msg ++ s.data.drop (s.index + msg.length),
      index := s.index + msg.length })

/-! ### Basic buffer lemmas -/

theorem MessageBuffer.contents_length (s : MessageBuffer) (h : s.WF) :
    s.contents.length = s.index := by
  rcases h with ⟨hlen, hidx⟩
  simp [MessageBuffer.contents, hlen]
  omega

/-- Characterization of `findCRLF l = none`: no position `i` of `l` holds a
CR immediately followed by an LF. -/
theorem findCRLF_eq_none_iff (l : List Nat) :
    findCRLF l = none ↔
      ∀ i, i + 1 < l.length → ¬(l.get? i = some 13 ∧ l.get? (i + 1) = some 10) := by
  induction l with
  | nil => simp [findCRLF]
  | cons a t ih =>
    cases t with
    | nil =>
      simp [findCRLF]
    | cons b t2 =>
      by_cases hab : a = 13 ∧ b = 10
      · simp only [findCRLF, if_pos hab]
        constructor
        · intro h; exact absurd h (by simp)
        · intro h
          exact absurd (h 0 (by simp)) (by simp [hab.1, hab.2])
      · simp only [findCRLF, if_neg hab, Option.map_eq_none']
        rw [ih]
        constructor
        · intro h i hi
          cases i with
          | zero =>
            intro ⟨h1, h2⟩
            exact hab ⟨by simpa using h1, by simpa using h2⟩
          | succ j =>
            have := h j (by simpa using hi)
            simpa using this
        · intro h i hi
          have := h (i + 1) (by simpa using hi)
          simpa using this

/-! ## Claim C1: extract on CRLF-free contents -/

/-- C1 (counterexample).  The claim states that when the live contents hold
no CR LF pair and `index > 0`, `extract` returns `None` and retains the
buffered bytes.  On the buffer holding the single byte 97 (no CR LF pair,
`index = 1`), `extract` in fact returns `Some [97]` and resets the index to
0, discarding the byte. -/
theorem c1_extract_counterexample :
    (∀ i, i + 1 < (MessageBuffer.contents ⟨97 :: List.replicate 511 0, 1⟩).length →
      ¬((MessageBuffer.contents ⟨97 :: List.replicate 511 0, 1⟩).get? i = some 13 ∧
        (MessageBuffer.contents ⟨97 :: List.replicate 511 0, 1⟩).get? (i + 1) = some 10)) ∧
    0 < (MessageBuffer.index ⟨97 :: List.replicate 511 0, 1⟩) ∧
    (MessageBuffer.extract ⟨97 :: List.replicate 511 0, 1⟩).1 ≠ none ∧
    (MessageBuffer.extract ⟨97 :: List.replicate 511 0, 1⟩).1 = some [97] ∧
    (MessageBuffer.extract ⟨97 :: List.replicate 511 0, 1⟩).2.index = 0 := by
  refine ⟨?_, ?_, ?_, ?_, ?_⟩
  · intro i hi
    have hl : (MessageBuffer.contents ⟨97 :: List.replicate 511 0, 1⟩).length = 1 := rfl
    omega
  · decide
  · decide
  · decide
  · decide
/-- C1 (amended).  When the live contents (the first `index` bytes,
`index > 0`) contain no CR immediately followed by LF, `extract` returns
`Some` of the entire live contents and resets `index` to 0 (discarding the
buffered bytes), leaving the backing array untouched; it does not return
`None`. -/
theorem c1_extract_no_crlf (s : MessageBuffer) (_hWF : s.WF) (hpos : 0 < s.index)
    (hno : ∀ i, i + 1 < s.contents.length →
      ¬(s.contents.get? i = some 13 ∧ s.contents.get? (i + 1) = some 10)) :
    s.extract = (some s.contents, { data := s.data, index := 0 }) := by
  have hnone : findCRLF s.contents = none := (findCRLF_eq_none_iff _).mpr hno
  have hgeol : s.getEol = none := by
    rw [MessageBuffer.getEol, hnone]; rfl
  unfold MessageBuffer.extract
  rw [if_neg (by omega), hgeol]
  rfl

/-- C1 witness: the amended theorem applied at a concrete buffer. -/
theorem c1_extract_no_crlf_witness :
    MessageBuffer.extract ⟨97 :: List.replicate 511 0, 1⟩ =
      (some [97], { data := 97 :: List.replicate 511 0, index := 0 }) := by
  have h := c1_extract_no_crlf ⟨97 :: List.replicate 511 0, 1⟩
    (by
      constructor
      · rw [show (MessageBuffer.data ⟨97 :: List.replicate 511 0, 1⟩) = 97 :: List.replicate 511 0
          from rfl, List.length_cons, List.length_replicate]
        rfl
      · norm_num [MESSAGE_SIZE])
    (by norm_num)
    (by
      intro i hi
      have hl : (MessageBuffer.contents ⟨97 :: List.replicate 511 0, 1⟩).length = 1 := rfl
      omega)
  rw [h]
  rfl

/-- Taking exactly the combined length of the first two of three appended
lists yields those two lists. -/
theorem take_len_append_append (a b c : List Nat) (n : Nat)
    (h : a.length + b.length = n) : (a ++ b ++ c).take n = a ++ b := by
  have h2 : (a ++ b).length = n := by rw [List.length_append]; omega
  rw [← h2, List.take_left]

/-! ## Claim C5: append overflow semantics -/

/-- C5.  `append` fails with `OverFlow` exactly when `index + len > 512`; on
failure the buffer state is returned unchanged (no partial write); on
success all of `msg` is copied after the live contents and the index
advances by `len`. -/
theorem c5_append_spec (s : MessageBuffer) (msg : List Nat) (hWF : s.WF) :
    ((s.append msg).1 = some BufferError.overFlow ↔ MESSAGE_SIZE < s.index + msg.length) ∧
    (MESSAGE_SIZE < s.index + msg.length → (s.append msg).2 = s) ∧
    (s.index + msg.length ≤ MESSAGE_SIZE →
      (s.append msg).1 = none ∧
      (s.append msg).2.index = s.index + msg.length ∧
      (s.append msg).2.contents = s.contents ++ msg ∧
      (s.append msg).2.WF) := by
  rcases hWF with ⟨hlen, hidx⟩
  by_cases hov : msg.length > MESSAGE_SIZE - s.index
  · have heq : s.append msg = (some BufferError.overFlow, s) := by
      rw [MessageBuffer.append, if_pos hov]
    have hgt : MESSAGE_SIZE < s.index + msg.length := by omega
    refine ⟨by simp [heq, hgt], fun _ => by simp [heq], fun hle => by omega⟩
  · have heq : s.append msg = (none,
        { data := s.data.take s.index ++ msg ++ s.data.drop (s.index + msg.length),
          index := s.index + msg.length }) := by
      rw [MessageBuffer.append, if_neg hov]
    have hle : s.index + msg.length ≤ MESSAGE_SIZE := by omega
    have htake : (s.data.take s.index).length = s.index := by
      rw [List.length_take]; omega
    refine ⟨by simp [heq]; omega, fun hgt => by omega, fun _ => ?_⟩
    refine ⟨by simp [heq], by simp [heq], ?_, ?_⟩
    · show ((s.append msg).2.data.take (s.append msg).2.index : List Nat) = s.contents ++ msg
      rw [heq]
      show ((s.data.take s.index ++ msg ++ s.data.drop (s.index + msg.length)).take
        (s.index + msg.length) : List Nat) = s.contents ++ msg
      rw [take_len_append_append _ _ _ _ (by rw [htake])]
      rfl
    · constructor
      · rw [heq]
        show (s.data.take s.index ++ msg ++ s.data.drop (s.index + msg.length)).length
          = MESSAGE_SIZE
        rw [List.append_assoc, List.length_append, List.length_append, htake,
          List.length_drop]
        omega
      · rw [heq]
        exact hle

/-- C5 witness: the theorem applied at a concrete buffer and message. -/
theorem c5_append_spec_witness :
    (MessageBuffer.new.append [1, 2, 3]).1 = none ∧
    (MessageBuffer.new.append [1, 2, 3]).2.index = 3 ∧
    (MessageBuffer.new.append [1, 2, 3]).2.contents = [1, 2, 3] := by
  have h := c5_append_spec MessageBuffer.new [1, 2, 3]
    (by constructor <;> simp [MessageBuffer.new, MESSAGE_SIZE, List.length_replicate])
  have h3 := h.2.2 (by simp [MessageBuffer.new, MESSAGE_SIZE])
  refine ⟨h3.1, h3.2.1, ?_⟩
  rw [h3.2.2.1]
  rfl

/-! ## Claim C2: framing round trip -/

/-- A valid CRLF-terminated frame of at most 512 octets: at least CR LF
long, and the first CR LF pair of the frame is exactly its final two
bytes. -/
def ValidFrame (f : List Nat) : Prop :=
  f.length ≤ MESSAGE_SIZE ∧ 2 ≤ f.length ∧ findCRLF f = some (f.length - 2)

instance : DecidablePred ValidFrame := fun f => by
  unfold ValidFrame; infer_instance

/-- The first CR LF pair of a list stays the first CR LF pair after
appending further bytes. -/
theorem findCRLF_append (l r : List Nat) (j : Nat) (h : findCRLF l = some j) :
    findCRLF (l ++ r) = some j := by
  induction l generalizing j with
  | nil => simp [findCRLF] at h
  | cons a t ih =>
    cases t with
    | nil => simp [findCRLF] at h
    | cons b t2 =>
      have hunf : findCRLF (a :: b :: (t2 ++ r)) =
          if a = 13 ∧ b = 10 then some 0
          else (findCRLF (b :: (t2 ++ r))).map (· + 1) := rfl
      by_cases hab : a = 13 ∧ b = 10
      · simp only [findCRLF, if_pos hab] at h
        injection h with h0
        subst h0
        simp only [List.cons_append]
        rw [hunf, if_pos hab]
      · simp only [findCRLF, if_neg hab, Option.map_eq_some'] at h
        obtain ⟨j2, hj2, hj⟩ := h
        subst hj
        have h2 := ih j2 hj2
        simp only [List.cons_append] at h2 ⊢
        rw [hunf, if_neg hab, h2]
        rfl

/-- Extraction step: if the live contents are a valid frame followed by a
remainder, `extract` yields exactly that frame and the shifted state holds
exactly the remainder. -/
theorem extract_frame (s : MessageBuffer) (f r : List Nat) (hWF : s.WF)
    (hc : s.contents = f ++ r) (hf : ValidFrame f) :
    ∃ s1, s.extract = (some f, s1) ∧ s1.WF ∧ s1.contents = r := by
  obtain ⟨hlen, hidx⟩ := hWF
  obtain ⟨hf512, hf2, hfcrlf⟩ := hf
  have hclen : s.contents.length = s.index := by
    rw [MessageBuffer.contents, List.length_take]; omega
  have hidxeq : s.index = f.length + r.length := by
    rw [← hclen, hc, List.length_append]
  have hfle : f.length ≤ s.index := by omega
  have hcrlf : findCRLF s.contents = some (f.length - 2) := by
    rw [hc]; exact findCRLF_append f r _ hfcrlf
  have hgeol : s.getEol = some f.length := by
    rw [MessageBuffer.getEol, hcrlf]
    show some (f.length - 2 + 2) = some f.length
    congr 1
    omega
  have hpos : s.index ≠ 0 := by omega
  have htakef : s.data.take f.length = f := by
    have h1 : s.contents.take f.length = f := by
      rw [hc, List.take_append_eq_append_take,
        List.take_of_length_le (le_refl f.length),
        show f.length - f.length = 0 from by omega, List.take_zero, List.append_nil]
    rw [show s.contents = s.data.take s.index from rfl,
      List.take_take, min_eq_left hfle] at h1
    exact h1
  refine ⟨s.shiftToStart f.length, ?_, ?_, ?_⟩
  · rw [MessageBuffer.extract, if_neg hpos, hgeol]
    show (some (s.data.take f.length), s.shiftToStart f.length)
      = (some f, s.shiftToStart f.length)
    rw [htakef]
  · constructor
    · show ((s.data.drop f.length).take (s.index - f.length)
        ++ s.data.drop (s.index - f.length)).length = MESSAGE_SIZE
      rw [List.length_append, List.length_take, List.length_drop, List.length_drop]
      omega
    · show s.index - f.length ≤ MESSAGE_SIZE
      omega
  · show (((s.data.drop f.length).take (s.index - f.length)
      ++ s.data.drop (s.index - f.length)).take (s.index - f.length) : List Nat) = r
    have hlt : ((s.data.drop f.length).take (s.index - f.length)).length
        = s.index - f.length := by
      rw [List.length_take, List.length_drop]
      omega
    rw [List.take_append_eq_append_take, hlt,
      List.take_of_length_le (le_of_eq hlt),
      show s.index - f.length - (s.index - f.length) = 0 from by omega,
      List.take_zero, List.append_nil]
    have h2 : s.contents.drop f.length = r := by
      rw [hc, List.drop_append_eq_append_drop,
        List.drop_of_length_le (le_refl f.length),
        show f.length - f.length = 0 from by omega, List.drop_zero, List.nil_append]
    rw [show s.contents = s.data.take s.index from rfl, List.drop_take] at h2
    exact h2

/-- Repeatedly call `extract` (the drive loop of the daemon draining a
connection buffer), collecting the extracted lines, with explicit fuel.
Fuel at least the buffer index suffices to reach the `None` answer, since
every successful `extract` strictly decreases the index. -/
def drain : Nat → MessageBuffer → List (List Nat) × MessageBuffer
  | 0, s => ([], s)
  | fuel + 1, s =>
    match s.extract with
    | (none, s1) => ([], s1)
    | (some f, s1) =>
      let p := drain fuel s1
      (f :: p.1, p.2)

/-- Draining a buffer whose live contents are a concatenation of valid
frames yields exactly those frames, leaving an empty well-formed buffer. -/
theorem drain_frames (fs : List (List Nat)) (s : MessageBuffer) (fuel : Nat)
    (hWF : s.WF) (hc : s.contents = fs.foldr (· ++ ·) [])
    (hv : ∀ f ∈ fs, ValidFrame f) (hfuel : fs.length ≤ fuel) :
    ∃ s2, drain fuel s = (fs, s2) ∧ s2.WF ∧ s2.index = 0 := by
  induction fs generalizing s fuel with
  | nil =>
    have hidx : s.index = 0 := by
      have := MessageBuffer.contents_length s hWF
      rw [hc] at this
      simpa using this.symm
    cases fuel with
    | zero => exact ⟨s, rfl, hWF, hidx⟩
    | succ n =>
      have hex : s.extract = (none, s) := by
        rw [MessageBuffer.extract, if_pos hidx]
      refine ⟨s, ?_, hWF, hidx⟩
      rw [drain, hex]
  | cons f fs2 ih =>
    cases fuel with
    | zero => simp at hfuel
    | succ n =>
      have hc2 : s.contents = f ++ fs2.foldr (· ++ ·) [] := by
        rw [hc]; rfl
      obtain ⟨s1, hex, hWF1, hc1⟩ :=
        extract_frame s f (fs2.foldr (· ++ ·) []) hWF hc2 (hv f (by simp))
      obtain ⟨s2, hdr, hWF2, hidx2⟩ :=
        ih s1 n hWF1 hc1 (fun g hg => hv g (by simp [hg])) (by simpa using hfuel)
      refine ⟨s2, ?_, hWF2, hidx2⟩
      rw [drain, hex]
      show (f :: (drain n s1).1, (drain n s1).2) = (f :: fs2, s2)
      rw [hdr]

/-- Appending into an empty well-formed buffer succeeds when the chunk fits
and makes the chunk the live contents. -/
theorem append_from_empty (s : MessageBuffer) (msg : List Nat) (hWF : s.WF)
    (h0 : s.index = 0) (hlen : msg.length ≤ MESSAGE_SIZE) :
    ∃ s1, s.append msg = (none, s1) ∧ s1.WF ∧ s1.contents = msg ∧ s1.index = msg.length := by
  have h := c5_append_spec s msg hWF
  have h3 := h.2.2 (by omega)
  refine ⟨(s.append msg).2, by rw [← h3.1], h3.2.2.2, ?_, by rw [h3.2.1, h0]; omega⟩
  have hc : s.contents = [] := by
    rw [MessageBuffer.contents, h0, List.take_zero]
  rw [h3.2.2.1, hc, List.nil_append]

/-- The daemon's per-connection read cycle: append each incoming chunk,
then drain the buffer with `extract` (fuel `index` reaches the `None`
answer), concatenating the extracted lines over all chunks.  Returns `none`
if some `append` overflows. -/
def processChunks : List (List Nat) → MessageBuffer → Option (List (List Nat)) × MessageBuffer
  | [], s => (some [], s)
  | c :: cs, s =>
    match s.append c with
    | (some _, s1) => (none, s1)
    | (none, s1) =>
      let p := drain s1.index s1
      match processChunks cs p.2 with
      | (none, s3) => (none, s3)
      | (some rest, s3) => (some (p.1 ++ rest), s3)

/-- Total length of a concatenation of frames bounds the frame count. -/
theorem length_le_foldr_length (fs : List (List Nat))
    (h : ∀ f ∈ fs, ValidFrame f) :
    fs.length ≤ (fs.foldr (· ++ ·) []).length := by
  induction fs with
  | nil => simp
  | cons f fs2 ih =>
    have hf := (h f (by simp)).2.1
    have := ih (fun g hg => h g (by simp [hg]))
    simp only [List.foldr_cons, List.length_cons, List.length_append]
    omega

/-- Core of C2 (amended): starting from any empty well-formed buffer,
appending frame-aligned chunks and draining after each append yields
exactly the concatenation of the chunked frame lists. -/
theorem processChunks_frames (chunks : List (List (List Nat))) (s : MessageBuffer)
    (hWF : s.WF) (h0 : s.index = 0)
    (hv : ∀ ch ∈ chunks, ∀ f ∈ ch, ValidFrame f)
    (hfit : ∀ ch ∈ chunks, (ch.foldr (· ++ ·) []).length ≤ MESSAGE_SIZE) :
    ∃ sF, processChunks (chunks.map (·.foldr (· ++ ·) [])) s
      = (some (chunks.foldr (· ++ ·) []), sF) := by
  induction chunks generalizing s with
  | nil => exact ⟨s, rfl⟩
  | cons ch cs ih =>
    obtain ⟨s1, happ, hWF1, hc1, hidx1⟩ :=
      append_from_empty s (ch.foldr (· ++ ·) []) hWF h0 (hfit ch (by simp))
    have hcount : ch.length ≤ s1.index := by
      rw [hidx1]
      exact length_le_foldr_length ch (hv ch (by simp))
    obtain ⟨s2, hdr, hWF2, hidx2⟩ :=
      drain_frames ch s1 s1.index hWF1 hc1 (hv ch (by simp)) hcount
    obtain ⟨sF, hrec⟩ := ih s2 hWF2 hidx2
      (fun c hc => hv c (by simp [hc])) (fun c hc => hfit c (by simp [hc]))
    refine ⟨sF, ?_⟩
    show (match s.append (ch.foldr (· ++ ·) []) with
      | (some _, s1) => (none, s1)
      | (none, s1) =>
        let p := drain s1.index s1
        match processChunks (cs.map (·.foldr (· ++ ·) [])) p.2 with
        | (none, s3) => (none, s3)
        | (some rest, s3) => (some (p.1 ++ rest), s3))
      = (some ((ch :: cs).foldr (· ++ ·) []), sF)
    rw [happ]
    simp only [hdr, hrec, List.foldr_cons]

/-- C2 (counterexample).  The claim quantifies over every partition of the
concatenated frames into chunks.  For the single valid frame
`[97, 13, 10]` (the line a CR LF) partitioned into the chunks `[97]` and
`[13, 10]`, interleaved append and drain yields the two lines `[97]` and
`[13, 10]` -- the partial chunk is emitted early as its own line -- and not
the original frame sequence `[[97, 13, 10]]`. -/
theorem c2_framing_counterexample :
    ValidFrame [97, 13, 10] ∧
    [97] ++ [13, 10] = [97, 13, 10] ∧
    (processChunks [[97], [13, 10]] MessageBuffer.new).1 = some [[97], [13, 10]] ∧
    (processChunks [[97], [13, 10]] MessageBuffer.new).1 ≠ some [[97, 13, 10]] := by
  refine ⟨by decide, by decide, by decide, by decide⟩

/-- C2 (amended).  The round trip holds when every chunk boundary falls on
a frame boundary: if each appended chunk is itself a concatenation of valid
CRLF-terminated frames (each frame at most 512 octets) and each chunk fits
the 512-octet buffer, then interleaving `append` of the chunks with
draining `extract` calls yields exactly the original frames in order.  (A
chunk ending mid-frame instead makes `extract` emit the partial data early,
as the counterexample shows.) -/
theorem c2_framing_aligned (chunks : List (List (List Nat)))
    (hv : ∀ ch ∈ chunks, ∀ f ∈ ch, ValidFrame f)
    (hfit : ∀ ch ∈ chunks, (ch.foldr (· ++ ·) []).length ≤ MESSAGE_SIZE) :
    (processChunks (chunks.map (·.foldr (· ++ ·) [])) MessageBuffer.new).1
      = some (chunks.foldr (· ++ ·) []) := by
  obtain ⟨sF, h⟩ := processChunks_frames chunks MessageBuffer.new
    (by constructor <;> simp [MessageBuffer.new, MESSAGE_SIZE, List.length_replicate])
    rfl hv hfit
  rw [h]

/-- C2 witness: the amended theorem applied to two frame-aligned chunks,
the second carrying two frames. -/
theorem c2_framing_aligned_witness :
    (processChunks [[97, 13, 10], [98, 13, 10, 13, 10]] MessageBuffer.new).1
      = some [[97, 13, 10], [98, 13, 10], [13, 10]] := by
  have h := c2_framing_aligned [[[97, 13, 10]], [[98, 13, 10], [13, 10]]]
    (by decide) (by decide)
  exact h

/-! ## Parser parameter splitting (src/parser.rs) -/

/-- `MAX_MSG_PARAMS` from rfc_defs (value stated in the specification,
section 4.1). -/
def MAX_MSG_PARAMS : Nat := 15

/-- Rust `str::split(' ')` on a byte string: every separator splits, an
empty string yields one empty piece. -/
def splitSp : List Nat → List (List Nat)
  | [] => [[]]
  | c :: rest =>
    if c = 32 then [] :: splitSp rest
    else
      match splitSp rest with
      | [] => [[c]]
      | t :: ts => (c :: t) :: ts

/-- Rust `str::splitn(n, ' ')` on a byte string: at most `n` pieces, the
last piece absorbing the remainder verbatim. -/
def splitnSp : Nat → List Nat → List (List Nat)
  | 0, _ => []
  | 1, s => [s]
  | _ + 2, [] => [[]]
  | n + 2, c :: rest =>
    if c = 32 then [] :: splitnSp (n + 1) rest
    else
      match splitnSp (n + 2) rest with
      | [] => [[c]]
      | t :: ts => (c :: t) :: ts

/-- `split_colon_arg` from parser.rs: find the first occurrence of the two
bytes space colon, return the part before it and optionally the part after
it. -/
def splitColonArg : List Nat → List Nat × Option (List Nat)
  | 32 :: 58 :: rest => ([], some rest)
  | c :: rest =>
    let p := splitColonArg rest
    (c :: p.1, p.2)
  | [] => ([], none)

/-- The parameter-splitting step of `parse_message` (parser.rs lines
109-125) applied to the parameter substring: split off a trailing argument
at the first space-colon; if the middle part has fewer than
`MAX_MSG_PARAMS` space-separated tokens, split the middle into at most 14
pieces and append the trailing argument, otherwise split the whole
substring into at most 15 pieces.  (The source file does not compile as
written -- the arm for a trailing argument with too many middles leaves
`param_slices` unassigned -- so that arm follows the catch-all arm of the
source `match`, which is also the behaviour the specification, section
4.3, states as the intent.) -/
def paramsOf (paramSubstring : List Nat) : List (List Nat) :=
  match splitColonArg paramSubstring with
  | (middle, some trail) =>
    if (splitSp middle).length < MAX_MSG_PARAMS
    then splitnSp (MAX_MSG_PARAMS - 1) middle ++ [trail]
    else splitnSp MAX_MSG_PARAMS paramSubstring
  | (_, none) => splitnSp MAX_MSG_PARAMS paramSubstring

/-- Join byte strings with single spaces: the inverse reading of a space
split. -/
def joinSp : List (List Nat) → List Nat
  | [] => []
  | [x] => x
  | x :: y :: rest => x ++ 32 :: joinSp (y :: rest)

/-- `splitnSp` with positive fuel never returns an empty piece list. -/
theorem splitnSp_ne_nil (n : Nat) (s : List Nat) : splitnSp (n + 1) s ≠ [] := by
  cases n with
  | zero => simp [splitnSp]
  | succ m =>
    cases s with
    | nil => simp [splitnSp]
    | cons c rest =>
      rw [splitnSp]
      by_cases hc : c = 32
      · simp [hc]
      · rw [if_neg hc]
        cases h : splitnSp (m + 2) rest with
        | nil => simp
        | cons t ts => simp

/-- `splitnSp` produces at most `n` pieces. -/
theorem splitnSp_length_le (n : Nat) (s : List Nat) :
    (splitnSp n s).length ≤ n := by
  induction s generalizing n with
  | nil =>
    match n with
    | 0 => simp [splitnSp]
    | 1 => simp [splitnSp]
    | _ + 2 => simp [splitnSp]
  | cons c rest ih =>
    match n with
    | 0 => simp [splitnSp]
    | 1 => simp [splitnSp]
    | m + 2 =>
      rw [splitnSp]
      by_cases hc : c = 32
      · rw [if_pos hc]
        have := ih (m + 1)
        simpa using this
      · rw [if_neg hc]
        have := ih (m + 2)
        cases h : splitnSp (m + 2) rest with
        | nil => simp
        | cons t ts =>
          rw [h] at this
          simpa using this

/-- Splitting into at most `n + 1` pieces loses nothing: joining the pieces
with spaces restores the input verbatim. -/
theorem joinSp_splitnSp (n : Nat) (s : List Nat) :
    joinSp (splitnSp (n + 1) s) = s := by
  induction s generalizing n with
  | nil =>
    match n with
    | 0 => simp [splitnSp, joinSp]
    | m + 1 => simp [splitnSp, joinSp]
  | cons c rest ih =>
    match n with
    | 0 => simp [splitnSp, joinSp]
    | m + 1 =>
      rw [splitnSp]
      by_cases hc : c = 32
      · rw [if_pos hc]
        have hne := splitnSp_ne_nil m rest
        cases h : splitnSp (m + 1) rest with
        | nil => exact absurd h hne
        | cons t ts =>
          have := ih m
          rw [h] at this
          rw [joinSp, ← hc]
          rw [show joinSp (t :: ts) = rest from this]
          rfl
      · rw [if_neg hc]
        have hne := splitnSp_ne_nil (m + 1) rest
        cases h : splitnSp (m + 2) rest with
        | nil => exact absurd h hne
        | cons t ts =>
          have hj := ih (m + 1)
          rw [h] at hj
          cases ts with
          | nil =>
            have hj2 : t = rest := hj
            show (c :: t : List Nat) = c :: rest
            rw [hj2]
          | cons t2 ts2 =>
            have hj2 : (t ++ 32 :: joinSp (t2 :: ts2) : List Nat) = rest := hj
            show ((c :: t) ++ 32 :: joinSp (t2 :: ts2) : List Nat) = c :: rest
            simp only [List.cons_append]
            rw [hj2]

/-- C3 concrete input: the parameter substring holding the 14 one-letter
tokens a through n, then space colon x. -/
def c3Input : List Nat :=
  [97, 32, 98, 32, 99, 32, 100, 32, 101, 32, 102, 32, 103, 32, 104, 32,
   105, 32, 106, 32, 107, 32, 108, 32, 109, 32, 110, 32, 58, 120]

/-- C3 (counterexample).  The claim states that with 14 or more
space-separated tokens before the space-colon, the space-colon is treated
as data (split the whole substring into at most 15 tokens, colon kept).
On an input whose middle part has exactly 14 tokens, the code instead takes
the trailing-argument path: the middle is split into 14 tokens and the text
after the colon (without the colon) becomes the 15th parameter, which
differs from the claimed whole-substring split. -/
theorem c3_params_counterexample :
    (splitSp (splitColonArg c3Input).1).length = 14 ∧
    paramsOf c3Input
      = splitnSp (MAX_MSG_PARAMS - 1) (splitColonArg c3Input).1 ++ [[120]] ∧
    paramsOf c3Input ≠ splitnSp MAX_MSG_PARAMS c3Input := by
  refine ⟨by decide, by decide, by decide⟩

/-- C3 (amended).  In parse_message, when the parameter substring contains
a space-colon separator: if the part before it has fewer than 15
space-separated tokens, that part is split into at most 14 tokens and the
text after the separator becomes the final (trailing) parameter; if 15 or
more space-separated tokens precede it, the separator is treated as
ordinary data and the whole parameter substring is split on spaces into at
most 15 tokens, the 15th absorbing the remainder verbatim, colon
included. -/
theorem c3_params_split (ps middle trail : List Nat)
    (hsca : splitColonArg ps = (middle, some trail)) :
    ((splitSp middle).length < MAX_MSG_PARAMS →
      paramsOf ps = splitnSp (MAX_MSG_PARAMS - 1) middle ++ [trail] ∧
      (splitnSp (MAX_MSG_PARAMS - 1) middle).length ≤ MAX_MSG_PARAMS - 1 ∧
      (paramsOf ps).length ≤ MAX_MSG_PARAMS ∧
      (paramsOf ps).getLast? = some trail) ∧
    (MAX_MSG_PARAMS ≤ (splitSp middle).length →
      paramsOf ps = splitnSp MAX_MSG_PARAMS ps ∧
      (paramsOf ps).length ≤ MAX_MSG_PARAMS ∧
      joinSp (paramsOf ps) = ps) := by
  have hunf : paramsOf ps =
      if (splitSp middle).length < MAX_MSG_PARAMS
      then splitnSp (MAX_MSG_PARAMS - 1) middle ++ [trail]
      else splitnSp MAX_MSG_PARAMS ps := by
    rw [paramsOf, hsca]
  constructor
  · intro hlt
    rw [hunf, if_pos hlt]
    refine ⟨rfl, splitnSp_length_le _ _, ?_, ?_⟩
    · rw [List.length_append]
      have := splitnSp_length_le (MAX_MSG_PARAMS - 1) middle
      simp only [List.length_cons, List.length_nil]
      unfold MAX_MSG_PARAMS at this ⊢
      omega
    · exact List.getLast?_concat _
  · intro hge
    rw [hunf, if_neg (by omega)]
    exact ⟨rfl, splitnSp_length_le _ _, joinSp_splitnSp 14 ps⟩

/-- C3 witness: the amended theorem applied at the substring a space colon
b, whose middle has one token: the result is the token and the trailing
text. -/
theorem c3_params_split_witness :
    paramsOf [97, 32, 58, 98] = [[97], [98]] := by
  have h := (c3_params_split [97, 32, 58, 98] [97] [98] rfl).1 (by decide)
  rw [h.1]
  decide

/-! ## Namespace registry (src/irc.rs) -/

/-- The payload stored in the namespace table: a weak user reference or a
strong channel reference (identities abstracted to numbers; the claims
below only compare entries). -/
inductive NamedEntity where
  | user (id : Nat)
  | chan (id : Nat)
deriving DecidableEq

/-- Errors of irc::error used by the modelled operations (display strings
live in the error module, which is not needed here). -/
inductive IrcError where
  | nicknameInUse (n : List Nat)
  | noSuchNick (n : List Nat)
  | noSuchChannel (n : List Nat)
  | noRecipient (cmd : List Nat)
  | noTextToSend
deriving DecidableEq

/-- The `namespace` hash map of `Core`, as an association list with the
most recent insertion first; `insert_name` only inserts absent keys, so
keys stay distinct. -/
def Namespace := List (List Nat × NamedEntity)

/-- `HashMap::contains_key` on the association list. -/
def containsKey (ns : Namespace) (k : List Nat) : Bool :=
  ns.any (fun p => p.1 = k)

/-- `Core::insert_name`: create-if-absent, `NicknameInUse` when the exact
key is already present. -/
def insert_name (ns : Namespace) (name : List Nat) (item : NamedEntity) :
    Except IrcError Namespace :=
  if containsKey ns name then Except.error (IrcError.nicknameInUse name)
  else Except.ok ((name, item) :: ns)

/-- `Core::get_name`: look the exact key up, cloning the entry. -/
def get_name (ns : Namespace) (name : List Nat) : Option NamedEntity :=
  (ns.find? (fun p => p.1 = name)).map (·.2)

/-- `HashMap::remove` on the association list: the removed entry and the
remaining table, or `none` when the key is absent. -/
def removeKey (ns : Namespace) (key : List Nat) :
    Option (NamedEntity × Namespace) :=
  match ns with
  | [] => none
  | (k, v) :: rest =>
    if k = key then some (v, rest)
    else (removeKey rest key).map (fun p => (p.1, (k, v) :: p.2))

/-! ## Claim C4: case folding of namespace keys -/

/-- Modelled from the spec: the `rfc_defs` module is not in src, so the RFC
2812 section 2.2 case fold the claim speaks about is taken from
specification sections 4.4 and I1 -- ASCII lowercase letters and the four
bytes left-brace pipe right-brace tilde (123-126) fold onto uppercase
letters and left-bracket backslash right-bracket caret (91-94). -/
def rfc_case_fold (c : Nat) : Nat :=
  if 97 ≤ c ∧ c ≤ 126 then c - 32 else c

/-- C4 (counterexample).  The names A (65) and a (97) are equal up to the
RFC 2812 fold, yet after `insert_name` of A succeeds, `insert_name` of a
also succeeds (rather than returning `NicknameInUse`), leaving two distinct
namespace entries for fold-equal names: the code compares keys byte-exactly
with no case folding. -/
theorem c4_case_fold_counterexample :
    List.map rfc_case_fold [65] = List.map rfc_case_fold [97] ∧
    insert_name [] [65] (NamedEntity.user 1) = Except.ok [([65], NamedEntity.user 1)] ∧
    insert_name [([65], NamedEntity.user 1)] [97] (NamedEntity.user 2)
      = Except.ok [([97], NamedEntity.user 2), ([65], NamedEntity.user 1)] ∧
    get_name [([97], NamedEntity.user 2), ([65], NamedEntity.user 1)] [65]
      = some (NamedEntity.user 1) ∧
    get_name [([97], NamedEntity.user 2), ([65], NamedEntity.user 1)] [97]
      = some (NamedEntity.user 2) := by
  refine ⟨rfl, rfl, rfl, rfl, rfl⟩

/-- C4 (amended).  Namespace keys are compared byte-exactly with no case
folding: after `insert_name` succeeds for a name, `insert_name` of the
identical name returns `NicknameInUse` and `get_name` of that name returns
the stored entity, so at most one namespace entry exists per exact name;
any name differing in some byte -- including one equal up to the RFC 2812
fold -- that was absent before is inserted independently. -/
theorem c4_exact_key_semantics (ns ns2 : Namespace) (name : List Nat)
    (item item2 : NamedEntity) (h : insert_name ns name item = Except.ok ns2) :
    insert_name ns2 name item2 = Except.error (IrcError.nicknameInUse name) ∧
    get_name ns2 name = some item ∧
    ∀ n2, n2 ≠ name → containsKey ns n2 = false →
      insert_name ns2 n2 item2 = Except.ok ((n2, item2) :: ns2) := by
  rw [insert_name] at h
  by_cases hc : containsKey ns name
  · rw [if_pos hc] at h
    exact absurd h (by simp)
  · rw [if_neg hc] at h
    have hns2 : ns2 = (name, item) :: ns := by
      injection h with h2
      exact h2.symm
    subst hns2
    refine ⟨?_, ?_, ?_⟩
    · rw [insert_name, if_pos (by simp [containsKey])]
    · rw [get_name]
      simp [List.find?]
    · intro n2 hne hnc
      rw [insert_name, if_neg ?_]
      show ¬ containsKey ((name, item) :: ns) n2 = true
      simp only [containsKey, List.any_cons, Bool.or_eq_true, decide_eq_true_eq]
      push_neg
      constructor
      · exact fun hx => hne hx.symm
      · rw [containsKey] at hnc
        simp only [hnc]
        simp

/-- C4 witness: the amended theorem applied after inserting the name A. -/
theorem c4_exact_key_semantics_witness :
    insert_name [([65], NamedEntity.user 1)] [65] (NamedEntity.user 2)
      = Except.error (IrcError.nicknameInUse [65]) ∧
    get_name [([65], NamedEntity.user 1)] [65] = some (NamedEntity.user 1) ∧
    insert_name [([65], NamedEntity.user 1)] [98] (NamedEntity.user 2)
      = Except.ok [([98], NamedEntity.user 2), ([65], NamedEntity.user 1)] := by
  have h := c4_exact_key_semantics [] [([65], NamedEntity.user 1)] [65]
    (NamedEntity.user 1) (NamedEntity.user 2) rfl
  exact ⟨h.1, h.2.1, h.2.2 [98] (by decide) rfl⟩

/-! ## Claim C8: assign_id monotonicity -/

/-- The modulus of the Rust `u64` arithmetic of `id_counter`. -/
def U64_MOD : Nat := 2 ^ 64

/-- `Core::assign_id`: increment the `u64` counter (wrapping as the machine
type does) and return the new value, paired with the new counter state. -/
def assign_id (c : Nat) : Nat × Nat :=
  ((c + 1) % U64_MOD, (c + 1) % U64_MOD)

/-- The list of values returned by `k` successive `assign_id` calls
starting from counter state `c`. -/
def assignRun (c : Nat) : Nat → List Nat
  | 0 => []
  | k + 1 =>
    let p := assign_id c
    p.1 :: assignRun p.2 k

/-- Every value of a run from `c` lies strictly between `c` and `c + k`,
provided the counter does not wrap. -/
theorem assignRun_mem_bounds (k : Nat) :
    ∀ c, c + k < U64_MOD → ∀ x ∈ assignRun c k, c < x ∧ x ≤ c + k := by
  induction k with
  | zero => intro c _ x hx; simp [assignRun] at hx
  | succ n ih =>
    intro c hk x hx
    have hmod : (c + 1) % U64_MOD = c + 1 := Nat.mod_eq_of_lt (by omega)
    rw [assignRun] at hx
    simp only [assign_id, hmod] at hx
    rcases List.mem_cons.mp hx with h1 | h2
    · omega
    · have := ih (c + 1) (by omega) x h2
      omega

/-- Successive returned values strictly increase while the counter does not
wrap. -/
theorem assignRun_pairwise_lt (k : Nat) :
    ∀ c, c + k < U64_MOD → List.Pairwise (· < ·) (assignRun c k) := by
  induction k with
  | zero => intro c _; simp [assignRun]
  | succ n ih =>
    intro c hk
    have hmod : (c + 1) % U64_MOD = c + 1 := Nat.mod_eq_of_lt (by omega)
    rw [assignRun]
    simp only [assign_id, hmod]
    refine List.Pairwise.cons ?_ (ih (c + 1) (by omega))
    intro x hx
    exact (assignRun_mem_bounds n (c + 1) (by omega) x hx).1

/-- C8.  Over any sequence of `assign_id` calls from the fresh `Core`
counter (0), as long as the 64-bit counter cannot wrap, each returned value
is strictly greater than every previously returned value, all returned
values are distinct, and all are positive. -/
theorem c8_assign_id_strictly_increasing (n : Nat) (h : n < U64_MOD) :
    List.Pairwise (· < ·) (assignRun 0 n) ∧
    (assignRun 0 n).Nodup ∧
    ∀ x ∈ assignRun 0 n, 0 < x := by
  have hp := assignRun_pairwise_lt n 0 (by omega)
  refine ⟨hp, hp.imp (fun hlt => Nat.ne_of_lt hlt), ?_⟩
  intro x hx
  exact (assignRun_mem_bounds n 0 (by omega) x hx).1

/-- C8 witness: three calls from the fresh counter return 1, 2, 3. -/
theorem c8_assign_id_witness :
    assignRun 0 3 = [1, 2, 3] ∧ List.Pairwise (· < ·) (assignRun 0 3) := by
  have h := c8_assign_id_strictly_increasing 3 (by norm_num [U64_MOD])
  exact ⟨by decide, h.1⟩

/-! ## Claims C9 and C10: nick change and join -/

/-- The parts of `User` the nick-change and join claims touch: the guarded
`nick` field and the keys of the guarded `channel_list` map. -/
structure UserModel where
  nick : List Nat
  chans : List (List Nat)
deriving DecidableEq

/-- `Core::try_nick_change` (irc.rs lines 503-530): under the combined
namespace and channel-list locks, fail with `NicknameInUse` if the new nick
is a key; otherwise move the old nick's entry (if any) to the new key,
update the user's nick field and rekey the user's channels.  When the old
nick has no entry the `if let Some(val)` block is skipped entirely and
`Ok` is returned with nothing changed.  (Channel-side rekeying by
`Channel::update_nick` lives in the absent chan module; here every weak
channel pointer upgrades, so the user's channel keys are unchanged by it,
matching spec section 4.6 step 4.) -/
def try_nick_change (ns : Namespace) (u : UserModel) (new_nick : List Nat) :
    Except IrcError Unit × Namespace × UserModel :=
  if containsKey ns new_nick then
    (Except.error (IrcError.nicknameInUse new_nick), ns, u)
  else
    match removeKey ns u.nick with
    | some (val, ns2) =>
      (Except.ok (), (new_nick, val) :: ns2, { u with nick := new_nick })
    | none => (Except.ok (), ns, u)

/-- An absent key is not removable. -/
theorem removeKey_eq_none (ns : Namespace) (k : List Nat)
    (h : containsKey ns k = false) : removeKey ns k = none := by
  induction ns with
  | nil => rfl
  | cons p rest ih =>
    simp only [containsKey, List.any_cons, Bool.or_eq_false_iff,
      decide_eq_false_iff_not] at h
    rw [removeKey, if_neg h.1, ih ?_]
    · rfl
    · rw [containsKey]
      exact h.2

/-- An absent key has no `get_name` entry. -/
theorem get_name_eq_none (ns : Namespace) (k : List Nat)
    (h : containsKey ns k = false) : get_name ns k = none := by
  rw [get_name, List.find?_eq_none.mpr, Option.map_none']
  intro p hp
  simp only [containsKey] at h
  have := List.any_eq_false.mp h p hp
  simpa using this

/-- C9.  If `try_nick_change` runs when neither the new nick nor the user's
current nick is a namespace key, it returns `Ok` while inserting nothing:
the namespace, the user's nick field and the user's channel list are all
unchanged, and neither nick resolves afterwards. -/
theorem c9_nick_change_noop (ns : Namespace) (u : UserModel) (new_nick : List Nat)
    (hnew : containsKey ns new_nick = false)
    (hold : containsKey ns u.nick = false) :
    try_nick_change ns u new_nick = (Except.ok (), ns, u) ∧
    get_name ns new_nick = none ∧
    get_name ns u.nick = none := by
  refine ⟨?_, get_name_eq_none ns new_nick hnew, get_name_eq_none ns u.nick hold⟩
  rw [try_nick_change, if_neg (by simp [hnew]), removeKey_eq_none ns u.nick hold]

/-- C9 witness: the theorem applied with one unrelated namespace entry. -/
theorem c9_nick_change_noop_witness :
    try_nick_change [([98], NamedEntity.user 5)] ⟨[99], [[35, 97]]⟩ [100]
      = (Except.ok (), [([98], NamedEntity.user 5)], ⟨[99], [[35, 97]]⟩) := by
  exact (c9_nick_change_noop [([98], NamedEntity.user 5)] ⟨[99], [[35, 97]]⟩ [100]
    (by decide) (by decide)).1

/-- Modelled from the spec: `rfc_defs::valid_channel` is not in src;
specification section 4.1 states it as a leading hash, ampersand, plus or
exclamation byte, total length at most 50, and no space, comma, colon, BEL,
NUL, CR or LF anywhere. -/
def valid_channel (s : List Nat) : Bool :=
  match s with
  | [] => false
  | c :: _ =>
    (c = 35 ∨ c = 38 ∨ c = 43 ∨ c = 33) ∧ s.length ≤ 50 ∧
      s.all (fun b => b ≠ 32 ∧ b ≠ 44 ∧ b ≠ 58 ∧ b ≠ 7 ∧ b ≠ 0 ∧ b ≠ 13 ∧ b ≠ 10)

/-- `Core::join_chan` (irc.rs lines 467-500): reject an invalid channel
mask with `NoSuchChannel` before touching anything; otherwise get or create
the channel -- joining an existing channel the user is already on is a
no-op, joining an existing channel adds it to the user's channel list, and
an absent channel is created in the namespace with the user as its first
member.  (Channel membership internals and the TOPIC and NAMES replies live
in the absent chan and reply modules; membership is mirrored by the user's
channel-list keys per spec invariant I4.) -/
def join_chan (ns : Namespace) (u : UserModel) (chanmask : List Nat) :
    Except IrcError Unit × Namespace × UserModel :=
  if ¬ valid_channel chanmask then
    (Except.error (IrcError.noSuchChannel chanmask), ns, u)
  else
    match get_name ns chanmask with
    | some _ =>
      if chanmask ∈ u.chans then (Except.ok (), ns, u)
      else (Except.ok (), ns, { u with chans := chanmask :: u.chans })
    | none =>
      match insert_name ns chanmask (NamedEntity.chan 0) with
      | Except.ok ns2 => (Except.ok (), ns2, { u with chans := chanmask :: u.chans })
      | Except.error e => (Except.error e, ns, u)

/-- C10.  For every channel mask rejected by `valid_channel`, `join_chan`
returns the `NoSuchChannel` error and changes nothing: the namespace (so no
channel is created) and the user's channel list are returned unchanged. -/
theorem c10_join_invalid_mask (ns : Namespace) (u : UserModel) (chanmask : List Nat)
    (h : valid_channel chanmask = false) :
    join_chan ns u chanmask = (Except.error (IrcError.noSuchChannel chanmask), ns, u) := by
  rw [join_chan, if_pos (by simp [h])]

/-- C10 witness: the theorem applied to the mask rust, which lacks a valid
leading byte. -/
theorem c10_join_invalid_mask_witness :
    join_chan [] ⟨[97], []⟩ [114, 117, 115, 116]
      = (Except.error (IrcError.noSuchChannel [114, 117, 115, 116]), [], ⟨[97], []⟩) := by
  exact c10_join_invalid_mask [] ⟨[97], []⟩ [114, 117, 115, 116] (by decide)

/-! ## Claim C7: NOTICE silence -/

/-- Rust `str::split(',')` on a byte string (target lists). -/
def splitComma : List Nat → List (List Nat)
  | [] => [[]]
  | c :: rest =>
    if c = 44 then [] :: splitComma rest
    else
      match splitComma rest with
      | [] => [[c]]
      | t :: ts => (c :: t) :: ts

/-- The per-target loop of the `msg` handler: resolve each target in the
namespace; a resolved user or channel gets the message (delivery itself is
the I/O boundary and always reachable here), an unresolved target yields a
`NoSuchNick` which is sent back to the sender only when the command is
PRIVMSG -- under NOTICE it is only logged.  Returns the error replies sent
to the sender, in target order. -/
def msgLoop (ns : Namespace) (notice : Bool) : List (List Nat) → List IrcError
  | [] => []
  | t :: ts =>
    match get_name ns t with
    | some _ => msgLoop ns notice ts
    | none =>
      if notice then msgLoop ns notice ts
      else IrcError.noSuchNick t :: msgLoop ns notice ts

/-- The bytes of the string PRIVMSG (the command name used in the
`NoRecipient` reply). -/
def privmsgBytes : List Nat := [80, 82, 73, 86, 77, 83, 71]

/-- The `msg` dispatcher (irc.rs lines 681-733) over the model state: the
first parameter is the comma-separated target list, the remaining
parameters the text.  Missing recipient and missing text return `Ok`
silently under NOTICE and the `NoRecipient` and `NoTextToSend` errors under
PRIVMSG; then each target runs through `msgLoop` and the handler returns
`Ok`.  The result pairs the handler's return value with the list of error
replies sent to the sender. -/
def msgHandler (ns : Namespace) (opt_params : List (List Nat)) (notice : Bool) :
    Except IrcError Unit × List IrcError :=
  match opt_params with
  | [] =>
    if notice then (Except.ok (), [])
    else (Except.error (IrcError.noRecipient privmsgBytes), [])
  | targets :: rest =>
    if rest.isEmpty then
      if notice then (Except.ok (), [])
      else (Except.error IrcError.noTextToSend, [])
    else (Except.ok (), msgLoop ns notice (splitComma targets))

/-- Under NOTICE the per-target loop sends no error replies at all. -/
theorem msgLoop_notice_nil (ns : Namespace) (ts : List (List Nat)) :
    msgLoop ns true ts = [] := by
  induction ts with
  | nil => rfl
  | cons t ts2 ih =>
    rw [msgLoop]
    cases get_name ns t with
    | some e => simpa using ih
    | none => simpa using ih

/-- Under PRIVMSG every unresolved target contributes its `NoSuchNick`
reply. -/
theorem msgLoop_privmsg_mem (ns : Namespace) (ts : List (List Nat))
    (tgt : List Nat) (hmem : tgt ∈ ts) (hmiss : get_name ns tgt = none) :
    IrcError.noSuchNick tgt ∈ msgLoop ns false ts := by
  induction ts with
  | nil => simp at hmem
  | cons t ts2 ih =>
    rw [msgLoop]
    rcases List.mem_cons.mp hmem with h1 | h2
    · subst h1
      rw [hmiss]
      simp
    · cases hgn : get_name ns t with
      | some e => simpa using ih h2
      | none => simp [ih h2]

/-- C7.  A NOTICE dispatch never sends an error reply to the originating
client and never returns a protocol error -- missing recipient, missing
text and unknown targets are all silently dropped -- whereas the same
conditions under PRIVMSG produce `NoRecipient`, `NoTextToSend` and
`NoSuchNick` respectively. -/
theorem c7_notice_silent (ns : Namespace) (ps : List (List Nat)) :
    msgHandler ns ps true = (Except.ok (), []) ∧
    (ps = [] → msgHandler ns ps false
      = (Except.error (IrcError.noRecipient privmsgBytes), [])) ∧
    (∀ t, ps = [t] → msgHandler ns ps false = (Except.error IrcError.noTextToSend, [])) ∧
    (∀ t ts tgt, ps = t :: ts → ts ≠ [] → tgt ∈ splitComma t →
      get_name ns tgt = none →
      IrcError.noSuchNick tgt ∈ (msgHandler ns ps false).2) := by
  refine ⟨?_, ?_, ?_, ?_⟩
  · match ps with
    | [] => rfl
    | targets :: rest =>
      rw [msgHandler]
      cases hre : rest.isEmpty with
      | true => simp
      | false => simp [msgLoop_notice_nil]
  · intro h; subst h; rfl
  · intro t h; subst h; rfl
  · intro t ts tgt hps hts hmem hmiss
    subst hps
    rw [msgHandler]
    rw [if_neg (by simpa using hts)]
    exact msgLoop_privmsg_mem ns (splitComma t) tgt hmem hmiss

/-- C7 witness: NOTICE to the unknown target a with text b is fully silent,
while the same PRIVMSG sends `NoSuchNick` back. -/
theorem c7_notice_silent_witness :
    msgHandler [] [[97], [98]] true = (Except.ok (), []) ∧
    IrcError.noSuchNick [97] ∈ (msgHandler [] [[97], [98]] false).2 := by
  have h := c7_notice_silent [] [[97], [98]]
  exact ⟨h.1, h.2.2.2 [97] [[98]] [97] rfl (by decide) (by decide) rfl⟩

/-! ## Claim C6: the 353 NAMES-reply split loop -/

/-- The `overhead` computation of `User::send_rpl` for a `NameReply`
(irc.rs line 297): the source subtracts `10 + chan.len() + host.len()` from
`rfc::MAX_MSG_PARAMS` -- the parameter cap 15, not the message size 512 --
in `usize` arithmetic, embedded here with the wraparound the release build
performs.  (Whenever the host and channel names exceed 5 bytes together the
subtraction underflows; a debug build panics right here.) -/
def namesOverhead (chan host : List Nat) : Nat :=
  (MAX_MSG_PARAMS + U64_MOD - (10 + chan.length + host.length)) % U64_MOD

/-- The splitting loop of `User::send_rpl` for an over-long `NameReply`
(irc.rs lines 302-314), with explicit fuel standing for the steps the
`while` performs: while `i < vec_len`, if `sum + nick_vec[i].len() >=
overhead` then send a 353 line carrying `nick_vec[..i]` (collected in
`sent`) and restart on the tail, exactly as `split_off(i)` does; otherwise
the loop body does nothing -- the source increments neither `i` nor `sum`
in that branch.  Returns the sent nick groups once the loop exits, or
`none` if the fuel runs out. -/
def namesSplitLoop (host chan : List Nat) :
    Nat → List (List Nat) → Nat → Nat → List (List (List Nat)) →
    Option (List (List (List Nat)))
  | 0, _, _, _, _ => none
  | fuel + 1, nickVec, i, sum, sent =>
    if i < nickVec.length then
      if namesOverhead chan host ≤ sum + (nickVec.getD i []).length then
        namesSplitLoop host chan fuel (nickVec.drop i) 0 0 (sent ++ [nickVec.take i])
      else
        namesSplitLoop host chan fuel nickVec i sum sent
    else
      some sent

/-- The host example.com used by the failing input. -/
def c6Host : List Nat := [101, 120, 97, 109, 112, 108, 101, 46, 99, 111, 109]

/-- The channel rust (with hash) used by the failing input. -/
def c6Chan : List Nat := [35, 114, 117, 115, 116]

/-- One hundred five-byte nicks: a 353 line for them is far over 510 bytes,
so `send_rpl` enters the splitting branch. -/
def c6Nicks : List (List Nat) := List.replicate 100 [97, 97, 97, 97, 97]

/-- C6 (code bug).  On a NAMES reply whose formatted line exceeds 510
bytes, the splitting loop never terminates, whatever fuel it is given: the
underflowed `overhead` (15 - 26 wrapped) exceeds any nick length, so the
split condition is false and the loop body changes nothing, never
incrementing `i` -- no 353 line carrying the nicks is ever produced.  The
claim (each nick emitted exactly once in order over lines of at most 510
bytes) matches the specification, which itself flags the source arithmetic
as wrong, so the code, not the claim, is in error. -/
theorem c6_names_split_diverges :
    ∀ fuel, namesSplitLoop c6Host c6Chan fuel c6Nicks 0 0 [] = none := by
  intro fuel
  induction fuel with
  | zero => rfl
  | succ n ih =>
    rw [namesSplitLoop, if_pos (by decide), if_neg (by decide)]
    exact ih
